import Mathlib

/-!
Shallow embedding of `ring_mod` from `src/main.rs` (ozpv/mf-102).

The Rust code works on `f32`; the embedding models the floating-point
arithmetic with real numbers. `f32::rem_euclid` becomes `fmod` below,
and the saturating Rust cast `as i32` (round toward zero, clamp to the
`i32` range, NaN to 0) becomes `f32_to_i32` / `f32_to_i32_nan`, where
`Option ℝ` models an `f32` value with `none` standing for NaN. Real
arithmetic never produces NaN, so the processing loop uses the `some`
branch `f32_to_i32` directly.
-/

/-- LFO waveform selector, from `enum Waveform` in `src/main.rs`. -/
inductive Waveform
| Sinusoidal
| Square

/-- Parameter set, from `struct RingModParams` in `src/main.rs`.
`mix` is a `u8` in the source; it is modelled as a natural number
(every value `0..=255` a `u8` can hold is representable). -/
structure RingModParams where
  amount : ℝ
  lfo_waveform : Waveform
  rate : ℝ
  mix : ℕ
  frequency : ℝ

/-- The compiled-in parameter constant `RING_MOD_PARAMS` of `src/main.rs`. -/
noncomputable def RING_MOD_PARAMS : RingModParams :=
  { amount := 6.7
    lfo_waveform := Waveform.Square
    rate := 0.18
    mix := 71
    frequency := 156.0 }

/-- `f32::rem_euclid` for the positive modulus `2π`: the remainder of
`x` on division by `m`, in `[0, m)` when `0 < m`. -/
noncomputable def fmod (x m : ℝ) : ℝ := x - m * ⌊x / m⌋

/-- Normalized mix, line 44 of `src/main.rs`: `f32::from(params.mix) / 100.0`. -/
noncomputable def mixFraction (p : RingModParams) : ℝ := (p.mix : ℝ) / 100

/-- Normalized amount, line 45 of `src/main.rs`: `params.amount / 10.0`. -/
noncomputable def amountFraction (p : RingModParams) : ℝ := p.amount / 10

/-- LFO value computed from the advanced LFO phase, lines 58-67 of
`src/main.rs`: `sin` of the phase for `Sinusoidal`, and the two-level
gate `if lfo_phase.sin() >= 0.0 { 1.0 } else { 0.0 }` for `Square`. -/
noncomputable def lfoValue (p : RingModParams) (phi : ℝ) : ℝ :=
  match p.lfo_waveform with
  | Waveform.Sinusoidal => Real.sin phi
  | Waveform.Square => if 0 ≤ Real.sin phi then 1 else 0

/-- Instantaneous carrier frequency, the numerator of the carrier
increment on line 71 of `src/main.rs`:
`params.frequency + lfo * (params.frequency * 3.0 * amount)`. -/
noncomputable def instFreq (p : RingModParams) (phi : ℝ) : ℝ :=
  p.frequency + lfoValue p phi * (p.frequency * 3 * amountFraction p)

/-- The two oscillator phase accumulators of `ring_mod`
(`lfo_phase` and `carrier_phase`, lines 50-51 of `src/main.rs`). -/
structure OscState where
  lfo_phase : ℝ
  carrier_phase : ℝ

/-- One loop iteration of the oscillator state, lines 56-74 of
`src/main.rs`: advance and wrap the LFO phase, compute the LFO value
and the carrier increment, then advance and wrap the carrier phase. -/
noncomputable def ringStep (sr : ℕ) (p : RingModParams) (st : OscState) : OscState :=
  let lfoPhase := fmod (st.lfo_phase + 2 * Real.pi * p.rate / (sr : ℝ)) (2 * Real.pi)
  let carrierIncrement := 2 * Real.pi * instFreq p lfoPhase / (sr : ℝ)
  { lfo_phase := lfoPhase
    carrier_phase := fmod (st.carrier_phase + carrierIncrement) (2 * Real.pi) }

/-- The dry/wet mix of one sample, line 83 of `src/main.rs`:
`(sample * (1.0 - mix)) + (sample * carrier * mix)`. -/
noncomputable def mixOut (p : RingModParams) (s : ℤ) (carrier : ℝ) : ℝ :=
  (s : ℝ) * (1 - mixFraction p) + (s : ℝ) * carrier * mixFraction p

/-- The Rust cast `as i32` from `f32`, line 85 of `src/main.rs`, on a
numeric (non-NaN) value: round toward zero, then saturate to the `i32`
range. -/
noncomputable def f32_to_i32 (x : ℝ) : ℤ :=
  max (-(2 ^ 31)) (min (2 ^ 31 - 1) (if 0 ≤ x then ⌊x⌋ else ⌈x⌉))

/-- The Rust cast `as i32` from `f32` on the full `f32` domain, with
`none` modelling NaN: NaN casts to 0, every numeric value saturates. -/
noncomputable def f32_to_i32_nan : Option ℝ → ℤ
  | none => 0
  | some x => f32_to_i32 x

/-- The processing loop of `ring_mod`, lines 55-90 of `src/main.rs`:
at most `n` iterations; each iteration advances the oscillator state,
computes `carrier = carrier_phase.sin()`, and, if an input sample
remains, pushes the mixed and cast sample, otherwise stops early. -/
noncomputable def ringModLoop (sr : ℕ) (p : RingModParams) :
    ℕ → List ℤ → OscState → List ℤ
  | 0, _, _ => []
  | _ + 1, [], _ => []
  | n + 1, s :: rest, st =>
      f32_to_i32 (mixOut p s (Real.sin ((ringStep sr p st).carrier_phase)))
        :: ringModLoop sr p n rest (ringStep sr p st)

/-- `ring_mod` from `src/main.rs`: both phase accumulators start at 0. -/
noncomputable def ring_mod (sr : ℕ) (n : ℕ) (signal : List ℤ)
    (p : RingModParams) : List ℤ :=
  ringModLoop sr p n signal ⟨0, 0⟩

/-- The oscillator state reached after `k` iterations starting from `st`. -/
noncomputable def ringTraceFrom (sr : ℕ) (p : RingModParams) :
    OscState → ℕ → OscState
  | st, 0 => st
  | st, k + 1 => ringTraceFrom sr p (ringStep sr p st) k

/-- The oscillator state after `k` iterations of a run of `ring_mod`
(both phases start at 0). -/
noncomputable def ringTrace (sr : ℕ) (p : RingModParams) (k : ℕ) : OscState :=
  ringTraceFrom sr p ⟨0, 0⟩ k

/-- The list of instantaneous carrier frequencies used across a run of
`n` iterations (iteration `i` uses the LFO phase advanced at step `i+1`). -/
noncomputable def runInstFreqs (sr : ℕ) (p : RingModParams) (n : ℕ) : List ℝ :=
  (List.range n).map (fun i => instFreq p ((ringTrace sr p (i + 1)).lfo_phase))

/-- Every element of the list fits in the `i32` range. -/
def in_i32_range (l : List ℤ) : Prop :=
  ∀ s ∈ l, -(2 ^ 31) ≤ s ∧ s ≤ 2 ^ 31 - 1

/-- A full-wet parameter set: `mix = 100`, `amount = 0`. -/
noncomputable def pFullWet : RingModParams :=
  { amount := 0, lfo_waveform := Waveform.Sinusoidal, rate := 1, mix := 100, frequency := 1 }

/-- A dry parameter set: `mix = 0`. -/
noncomputable def pDry : RingModParams :=
  { amount := 6.7, lfo_waveform := Waveform.Square, rate := 0.18, mix := 0, frequency := 156 }

/-- A parameter set the processing loop accepts whose fields exceed the
documented ranges: `mix = 255` (a valid `u8`), `amount = 20`. -/
noncomputable def pOutOfRange : RingModParams :=
  { amount := 20, lfo_waveform := Waveform.Sinusoidal, rate := 1, mix := 255, frequency := 2 }

/-- A square-LFO parameter set with maximal amount. -/
noncomputable def pSquare : RingModParams :=
  { amount := 10, lfo_waveform := Waveform.Square, rate := 1, mix := 50, frequency := 1 }

/-- The Euclidean remainder by a positive modulus is nonnegative and
below the modulus, for any argument (negative arguments included). -/
theorem fmod_bounds (x m : ℝ) (hm : 0 < m) : 0 ≤ fmod x m ∧ fmod x m < m := by
  have h1 : (⌊x / m⌋ : ℝ) ≤ x / m := Int.floor_le _
  have h2 : x / m < ⌊x / m⌋ + 1 := Int.lt_floor_add_one _
  have h1' : (⌊x / m⌋ : ℝ) * m ≤ x := (le_div_iff₀ hm).mp h1
  have h2' : x < ((⌊x / m⌋ : ℝ) + 1) * m := (div_lt_iff₀ hm).mp h2
  unfold fmod
  constructor <;> nlinarith

/-- A value already in `[0, m)` is its own Euclidean remainder. -/
theorem fmod_eq_self (x m : ℝ) (h0 : 0 ≤ x) (h1 : x < m) : fmod x m = x := by
  have hm : 0 < m := lt_of_le_of_lt h0 h1
  have hq : ⌊x / m⌋ = 0 := by
    rw [Int.floor_eq_zero_iff]
    constructor
    · positivity
    · exact (div_lt_one hm).mpr h1
  simp [fmod, hq]

/-- Unfolding the state trace from the back. -/
theorem ringTraceFrom_succ (sr : ℕ) (p : RingModParams) (st : OscState) (k : ℕ) :
    ringTraceFrom sr p st (k + 1) = ringStep sr p (ringTraceFrom sr p st k) := by
  induction k generalizing st with
  | zero => rfl
  | succ k ih =>
      have : ringTraceFrom sr p st (k + 1 + 1)
          = ringTraceFrom sr p (ringStep sr p st) (k + 1) := rfl
      rw [this, ih, ringTraceFrom]

/-- The loop produces exactly `min n (length of input)` samples. -/
theorem ringModLoop_length (sr : ℕ) (p : RingModParams) :
    ∀ (n : ℕ) (sig : List ℤ) (st : OscState),
      (ringModLoop sr p n sig st).length = min n sig.length
  | 0, _, _ => by simp [ringModLoop]
  | _ + 1, [], _ => by simp [ringModLoop]
  | n + 1, s :: rest, st => by
      simp [ringModLoop, ringModLoop_length sr p n rest (ringStep sr p st)]
      omega

/-- Both phase components of one loop iteration land in `[0, 2π)`,
whatever the incoming state, parameters, and sample rate. -/
theorem ringStep_phases_in_range (sr : ℕ) (p : RingModParams) (st : OscState) :
    (0 ≤ (ringStep sr p st).lfo_phase ∧ (ringStep sr p st).lfo_phase < 2 * Real.pi)
      ∧ (0 ≤ (ringStep sr p st).carrier_phase
          ∧ (ringStep sr p st).carrier_phase < 2 * Real.pi) := by
  have hm : (0 : ℝ) < 2 * Real.pi := Real.two_pi_pos
  constructor
  · exact fmod_bounds _ _ hm
  · exact fmod_bounds _ _ hm

/-- C1: for every sample rate, sample length, input signal, and
parameter set, the output of `ring_mod` has length
`min sampleLength (length of input)`: at most `sampleLength`
iterations, stopping without padding when the input is exhausted. -/
theorem ring_mod_length_law (sr n : ℕ) (sig : List ℤ) (p : RingModParams) :
    (ring_mod sr n sig p).length = min n sig.length :=
  ringModLoop_length sr p n sig ⟨0, 0⟩

/-- C4: in every run of `ring_mod`, for arbitrary parameters and
sample rate, both phase accumulators lie in `[0, 2π)` after every
iteration (and at initialization): the wrap never yields a negative
value, even for a negative carrier increment. -/
theorem ring_mod_phases_bounded (sr : ℕ) (p : RingModParams) (k : ℕ) :
    (0 ≤ (ringTrace sr p k).lfo_phase ∧ (ringTrace sr p k).lfo_phase < 2 * Real.pi)
      ∧ (0 ≤ (ringTrace sr p k).carrier_phase
          ∧ (ringTrace sr p k).carrier_phase < 2 * Real.pi) := by
  cases k with
  | zero =>
      have hm : (0 : ℝ) < 2 * Real.pi := Real.two_pi_pos
      exact ⟨⟨le_refl 0, hm⟩, ⟨le_refl 0, hm⟩⟩
  | succ k =>
      rw [ringTrace, ringTraceFrom_succ]
      exact ringStep_phases_in_range sr p _

/-- Output sample `i` of the loop, when input sample `i` exists and `i`
is below the iteration budget, is the mixed and cast product of input
sample `i` with the sine of the carrier phase after `i + 1` steps. -/
theorem ringModLoop_getElem (sr : ℕ) (p : RingModParams) :
    ∀ (i n : ℕ) (sig : List ℤ) (st : OscState) (s : ℤ),
      i < n → sig[i]? = some s →
      (ringModLoop sr p n sig st)[i]?
        = some (f32_to_i32 (mixOut p s
            (Real.sin ((ringTraceFrom sr p st (i + 1)).carrier_phase)))) := by
  intro i
  induction i with
  | zero =>
      intro n sig st s hn hs
      cases n with
      | zero => omega
      | succ n =>
          cases sig with
          | nil => simp at hs
          | cons s₀ rest =>
              simp only [List.getElem?_cons_zero, Option.some.injEq] at hs
              subst hs
              simp [ringModLoop, ringTraceFrom]
  | succ i ih =>
      intro n sig st s hn hs
      cases n with
      | zero => omega
      | succ n =>
          cases sig with
          | nil => simp at hs
          | cons s₀ rest =>
              simp only [List.getElem?_cons_succ] at hs
              have h := ih n rest (ringStep sr p st) s (by omega) hs
              simpa [ringModLoop, ringTraceFrom] using h

/-- The concrete oscillator step used in the C2 counterexample:
one iteration at sample rate 12 with `pFullWet` lands both phases at
`π / 6`. -/
theorem ringStep_pFullWet_12 :
    ringStep 12 pFullWet ⟨0, 0⟩ = ⟨Real.pi / 6, Real.pi / 6⟩ := by
  have hpi := Real.pi_pos
  have h6 : fmod (Real.pi / 6) (2 * Real.pi) = Real.pi / 6 :=
    fmod_eq_self _ _ (by positivity) (by linarith)
  have harg : (0 : ℝ) + 2 * Real.pi * 1 / ((12 : ℕ) : ℝ) = Real.pi / 6 := by
    push_cast
    ring
  have hIF : instFreq pFullWet (Real.pi / 6) = 1 := by
    simp [instFreq, lfoValue, amountFraction, pFullWet]
  show OscState.mk _ _ = _
  rw [show pFullWet.rate = 1 from rfl, show (OscState.mk 0 0).lfo_phase = (0:ℝ) from rfl,
    show (OscState.mk 0 0).carrier_phase = (0:ℝ) from rfl, harg, h6, hIF, harg, h6]

/-- C2 counterexample: at sample rate 12, `frequency = 1`, `mix = 100`,
`amount = 0`, input `[3]`, the carrier phase after one step is `π / 6`,
the wet product is `3 · sin(π/6) = 1.5`, and the code stores `1`
(truncation toward zero), while the claim's `round` gives `2`. -/
theorem ring_mod_full_wet_round_cex :
    ring_mod 12 1 [3] pFullWet = [1]
      ∧ round ((3 : ℝ) * Real.sin ((ringTrace 12 pFullWet 1).carrier_phase)) = 2 := by
  have htr : ringTrace 12 pFullWet 1 = ⟨Real.pi / 6, Real.pi / 6⟩ := ringStep_pFullWet_12
  constructor
  · show ringModLoop 12 pFullWet 1 [3] ⟨0, 0⟩ = [1]
    rw [show ringModLoop 12 pFullWet 1 [3] ⟨0, 0⟩
        = [f32_to_i32 (mixOut pFullWet 3
            (Real.sin ((ringStep 12 pFullWet ⟨0, 0⟩).carrier_phase)))] from rfl,
      ringStep_pFullWet_12]
    have hmix : mixOut pFullWet 3 (Real.sin (Real.pi / 6)) = 3 / 2 := by
      rw [Real.sin_pi_div_six]
      simp [mixOut, mixFraction, pFullWet]
      norm_num
    rw [show (OscState.mk (Real.pi / 6) (Real.pi / 6)).carrier_phase
        = Real.pi / 6 from rfl, hmix]
    have hfloor : ⌊(3 / 2 : ℝ)⌋ = 1 := by
      rw [Int.floor_eq_iff]
      norm_num
    simp [f32_to_i32, hfloor]
    norm_num [min_def, max_def]
  · rw [htr]
    rw [show (OscState.mk (Real.pi / 6) (Real.pi / 6)).carrier_phase
        = Real.pi / 6 from rfl, Real.sin_pi_div_six]
    rw [round_eq]
    norm_num

/-- C2 (amended): with `mix = 100` and `amount = 0`, output sample `i`
of `ring_mod` equals the saturating truncation toward zero (the Rust
`as i32` cast, not `round`) of `input[i] · sin(carrierPhase_i)`, where
`carrierPhase_i` is the deterministically accumulated carrier phase:
`2π·frequency/sampleRate` is added per step and wrapped into `[0, 2π)`
by the nonnegative remainder. -/
theorem ring_mod_full_wet_trunc (sr n : ℕ) (sig : List ℤ) (p : RingModParams)
    (i : ℕ) (s : ℤ) (hm : p.mix = 100) (ha : p.amount = 0)
    (hi : i < n) (hs : sig[i]? = some s) :
    (ring_mod sr n sig p)[i]?
        = some (f32_to_i32 ((s : ℝ)
            * Real.sin ((ringTrace sr p (i + 1)).carrier_phase)))
      ∧ (ringTrace sr p (i + 1)).carrier_phase
        = fmod ((ringTrace sr p i).carrier_phase
            + 2 * Real.pi * p.frequency / (sr : ℝ)) (2 * Real.pi) := by
  have hIF : ∀ phi : ℝ, instFreq p phi = p.frequency := by
    intro phi
    simp [instFreq, amountFraction, ha]
  constructor
  · have h := ringModLoop_getElem sr p i n sig ⟨0, 0⟩ s hi hs
    have hmix : mixOut p s (Real.sin ((ringTraceFrom sr p ⟨0, 0⟩ (i + 1)).carrier_phase))
        = (s : ℝ) * Real.sin ((ringTraceFrom sr p ⟨0, 0⟩ (i + 1)).carrier_phase) := by
      simp only [mixOut, mixFraction, hm]
      push_cast
      norm_num
    rw [hmix] at h
    exact h
  · rw [ringTrace, ringTrace, ringTraceFrom_succ]
    simp only [ringStep, hIF]

/-- Witness for the amended C2 theorem: the concrete full-wet run at
sample rate 12 on input `[3]`. -/
theorem ring_mod_full_wet_trunc_witness :
    pFullWet.mix = 100 ∧ pFullWet.amount = 0 ∧ 0 < 1
      ∧ (([3] : List ℤ)[0]? = some 3)
      ∧ ((ring_mod 12 1 [3] pFullWet)[0]?
          = some (f32_to_i32 ((3 : ℝ)
              * Real.sin ((ringTrace 12 pFullWet 1).carrier_phase)))
        ∧ (ringTrace 12 pFullWet 1).carrier_phase
          = fmod ((ringTrace 12 pFullWet 0).carrier_phase
              + 2 * Real.pi * pFullWet.frequency / ((12 : ℕ) : ℝ)) (2 * Real.pi)) :=
  ⟨rfl, rfl, Nat.zero_lt_one, rfl,
    ring_mod_full_wet_trunc 12 1 [3] pFullWet 0 3 rfl rfl Nat.zero_lt_one rfl⟩

/-- The cast of an integer-valued real inside the `i32` range is the
identity. -/
theorem f32_to_i32_intCast (s : ℤ) (h1 : -(2 ^ 31) ≤ s) (h2 : s ≤ 2 ^ 31 - 1) :
    f32_to_i32 (s : ℝ) = s := by
  unfold f32_to_i32
  have hfc : (if 0 ≤ (s : ℝ) then ⌊(s : ℝ)⌋ else ⌈(s : ℝ)⌉) = s := by
    split
    · exact Int.floor_intCast s
    · exact Int.ceil_intCast s
  rw [hfc]
  rw [min_eq_right h2, max_eq_right h1]

/-- With `mix = 0` the loop copies the first `n` input samples. -/
theorem ringModLoop_dry (sr : ℕ) (p : RingModParams) (hm : p.mix = 0) :
    ∀ (n : ℕ) (sig : List ℤ), in_i32_range sig →
      ∀ st : OscState, ringModLoop sr p n sig st = sig.take n := by
  intro n
  induction n with
  | zero => intro sig _ st; simp [ringModLoop]
  | succ n ih =>
      intro sig hr st
      cases sig with
      | nil => simp [ringModLoop]
      | cons s rest =>
          have hs := hr s (by simp)
          have hout : mixOut p s (Real.sin ((ringStep sr p st).carrier_phase))
              = (s : ℝ) := by
            simp only [mixOut, mixFraction, hm]
            push_cast
            ring
          have hrest : in_i32_range rest := by
            intro x hx
            exact hr x (by simp [hx])
          simp only [ringModLoop, hout, List.take_succ_cons,
            f32_to_i32_intCast s hs.1 hs.2, ih rest hrest (ringStep sr p st)]

/-- C3: with `mix = 0`, for every input whose samples fit in `i32`
(as every `Vec<i32>` does) and every choice of the other parameters,
`ring_mod` returns the input unchanged up to the length cutoff: in the
real-valued model the `i32 → f32 → i32` float path is exact, so the
output is the first `sampleLength` input samples verbatim. -/
theorem ring_mod_dry_passthrough (sr n : ℕ) (sig : List ℤ) (p : RingModParams)
    (hm : p.mix = 0) (hr : in_i32_range sig) :
    ring_mod sr n sig p = sig.take n :=
  ringModLoop_dry sr p hm n sig hr ⟨0, 0⟩

/-- Witness for C3: a concrete dry run copies its input. -/
theorem ring_mod_dry_passthrough_witness :
    pDry.mix = 0 ∧ in_i32_range [5, -7]
      ∧ ring_mod 44100 2 [5, -7] pDry = List.take 2 [5, -7] :=
  ⟨rfl, by intro s hs; fin_cases hs <;> norm_num,
    ring_mod_dry_passthrough 44100 2 [5, -7] pDry rfl
      (by intro s hs; fin_cases hs <;> norm_num)⟩

/-- C5: `ring_mod` performs no parameter validation and has no error
channel: called with `sampleRate = 0` (the spec's canonical invalid
configuration) and the compiled-in parameters it still runs the loop
to completion and returns an ordinary output vector of full length,
instead of failing fast with a configuration error. -/
theorem ring_mod_sr_zero_returns_normally :
    (ring_mod 0 5 [1, 2, 3, 4, 5] RING_MOD_PARAMS).length = 5 := by
  rw [show (ring_mod 0 5 [1, 2, 3, 4, 5] RING_MOD_PARAMS).length
      = min 5 ([1, 2, 3, 4, 5] : List ℤ).length
    from ringModLoop_length 0 RING_MOD_PARAMS 5 [1, 2, 3, 4, 5] ⟨0, 0⟩]
  rfl

/-- C6 counterexample: the engine accepts `mix = 255` (a valid `u8`)
and `amount = 20` without clamping or rejection, and the normalized
values it then uses leave `[0, 1]`: `mix/100 = 2.55` and
`amount/10 = 2`. -/
theorem normalized_params_out_of_range_cex :
    1 < mixFraction pOutOfRange ∧ 1 < amountFraction pOutOfRange := by
  constructor
  · show (1 : ℝ) < ((255 : ℕ) : ℝ) / 100
    norm_num
  · show (1 : ℝ) < (20 : ℝ) / 10
    norm_num

/-- C6 (amended): for every parameter set within the documented ranges
(`mix ≤ 100`, `0 ≤ amount ≤ 10`) the normalized values satisfy
`mix/100 ∈ [0, 1]` and `amount/10 ∈ [0, 1]`; the engine itself accepts
out-of-range fields without clamping, so the restriction to the
documented ranges is necessary. -/
theorem normalized_params_in_unit_interval (p : RingModParams)
    (hm : p.mix ≤ 100) (ha0 : 0 ≤ p.amount) (ha1 : p.amount ≤ 10) :
    (0 ≤ mixFraction p ∧ mixFraction p ≤ 1)
      ∧ (0 ≤ amountFraction p ∧ amountFraction p ≤ 1) := by
  unfold mixFraction amountFraction
  have hmr : (p.mix : ℝ) ≤ 100 := by exact_mod_cast hm
  have hm0 : (0 : ℝ) ≤ (p.mix : ℝ) := Nat.cast_nonneg _
  constructor
  · constructor
    · positivity
    · linarith [(div_le_one (by norm_num : (0:ℝ) < 100)).mpr hmr]
  · constructor
    · positivity
    · linarith [(div_le_one (by norm_num : (0:ℝ) < 10)).mpr ha1]

/-- Witness for the amended C6 theorem: the compiled-in parameter set
is inside the documented ranges and normalizes into `[0, 1]`. -/
theorem normalized_params_in_unit_interval_witness :
    RING_MOD_PARAMS.mix ≤ 100 ∧ 0 ≤ RING_MOD_PARAMS.amount
      ∧ RING_MOD_PARAMS.amount ≤ 10
      ∧ ((0 ≤ mixFraction RING_MOD_PARAMS ∧ mixFraction RING_MOD_PARAMS ≤ 1)
        ∧ (0 ≤ amountFraction RING_MOD_PARAMS ∧ amountFraction RING_MOD_PARAMS ≤ 1)) :=
  ⟨by norm_num [RING_MOD_PARAMS], by norm_num [RING_MOD_PARAMS],
    by norm_num [RING_MOD_PARAMS],
    normalized_params_in_unit_interval RING_MOD_PARAMS
      (by norm_num [RING_MOD_PARAMS]) (by norm_num [RING_MOD_PARAMS])
      (by norm_num [RING_MOD_PARAMS])⟩

/-- C7 counterexample: a run of length 1 (sample rate 4, `pSquare`)
attains exactly one instantaneous carrier frequency, the boosted value
`4 = frequency · (1 + 3·amountFraction)`, not two distinct values as
claimed: the base `frequency = 1` never occurs in this run. -/
theorem square_run_single_value_cex :
    runInstFreqs 4 pSquare 1 = [4]
      ∧ pSquare.frequency = 1
      ∧ pSquare.frequency * (1 + 3 * amountFraction pSquare) = 4
      ∧ (4 : ℝ) ≠ 1 := by
  have hpi := Real.pi_pos
  have hl : (ringTrace 4 pSquare 1).lfo_phase = Real.pi / 2 := by
    show (ringStep 4 pSquare ⟨0, 0⟩).lfo_phase = Real.pi / 2
    simp only [ringStep]
    rw [show pSquare.rate = 1 from rfl,
      show (0 : ℝ) + 2 * Real.pi * 1 / ((4 : ℕ) : ℝ) = Real.pi / 2 from by push_cast; ring]
    exact fmod_eq_self _ _ (by positivity) (by linarith)
  have hval : instFreq pSquare (Real.pi / 2) = 4 := by
    simp [instFreq, lfoValue, pSquare, amountFraction, Real.sin_pi_div_two]
    norm_num
  refine ⟨?_, rfl, by norm_num [pSquare, amountFraction], by norm_num⟩
  rw [runInstFreqs, show List.range 1 = [0] from rfl]
  simp [hl, hval]

/-- C7 (amended): with `lfoWaveform = Square`, at every step of every
run the instantaneous carrier frequency is either the base `frequency`
or the boosted `frequency · (1 + 3·amountFraction)` — never an
intermediate value; a given run need not attain both. -/
theorem square_inst_freq_two_level (sr : ℕ) (p : RingModParams) (k : ℕ)
    (hw : p.lfo_waveform = Waveform.Square) :
    instFreq p ((ringTrace sr p k).lfo_phase) = p.frequency
      ∨ instFreq p ((ringTrace sr p k).lfo_phase)
        = p.frequency * (1 + 3 * amountFraction p) := by
  simp only [instFreq, lfoValue, hw]
  split
  · right; ring
  · left; ring

/-- Witness for the amended C7 theorem at a concrete run. -/
theorem square_inst_freq_two_level_witness :
    pSquare.lfo_waveform = Waveform.Square
      ∧ (instFreq pSquare ((ringTrace 4 pSquare 0).lfo_phase) = pSquare.frequency
        ∨ instFreq pSquare ((ringTrace 4 pSquare 0).lfo_phase)
          = pSquare.frequency * (1 + 3 * amountFraction pSquare)) :=
  ⟨rfl, square_inst_freq_two_level 4 pSquare 0 rfl⟩

/-- With `amount = 0`, one oscillator step is the same whatever the
LFO waveform: the excursion term is multiplied by zero. -/
theorem ringStep_amount_zero (sr : ℕ) (w₁ w₂ : Waveform) (r : ℝ) (m : ℕ)
    (f : ℝ) (st : OscState) :
    ringStep sr ⟨0, w₁, r, m, f⟩ st = ringStep sr ⟨0, w₂, r, m, f⟩ st := by
  have h : ∀ (w : Waveform) (phi : ℝ), instFreq ⟨0, w, r, m, f⟩ phi = f := by
    intro w phi
    simp [instFreq, amountFraction]
  simp only [ringStep]
  rw [h, h]

/-- With `amount = 0`, the whole loop is waveform-independent. -/
theorem ringModLoop_amount_zero (sr : ℕ) (w₁ w₂ : Waveform) (r : ℝ) (m : ℕ) (f : ℝ) :
    ∀ (n : ℕ) (sig : List ℤ) (st : OscState),
      ringModLoop sr ⟨0, w₁, r, m, f⟩ n sig st
        = ringModLoop sr ⟨0, w₂, r, m, f⟩ n sig st := by
  intro n
  induction n with
  | zero => intro sig st; rfl
  | succ n ih =>
      intro sig st
      cases sig with
      | nil => rfl
      | cons s rest =>
          simp only [ringModLoop]
          rw [ringStep_amount_zero sr w₁ w₂ r m f st]
          congr 1
          exact ih rest _

/-- C8: with `amount = 0`, for every sample rate, length, input, and
remaining parameters, the `Sinusoidal` and `Square` runs of `ring_mod`
produce identical output: the frequency excursion is 0 whatever the
LFO value. -/
theorem ring_mod_amount_zero_waveform_irrelevant (sr n : ℕ) (sig : List ℤ)
    (r : ℝ) (m : ℕ) (f : ℝ) :
    ring_mod sr n sig ⟨0, Waveform.Sinusoidal, r, m, f⟩
      = ring_mod sr n sig ⟨0, Waveform.Square, r, m, f⟩ :=
  ringModLoop_amount_zero sr Waveform.Sinusoidal Waveform.Square r m f n sig ⟨0, 0⟩

/-- C9: `ring_mod` is deterministic — it is a pure function of its four
arguments (the embedding carries no other state), so two runs with
identical sample rate, length, input, and parameters produce identical
output. -/
theorem ring_mod_deterministic (sr₁ sr₂ n₁ n₂ : ℕ) (sig₁ sig₂ : List ℤ)
    (p₁ p₂ : RingModParams) (hsr : sr₁ = sr₂) (hn : n₁ = n₂)
    (hsig : sig₁ = sig₂) (hp : p₁ = p₂) :
    ring_mod sr₁ n₁ sig₁ p₁ = ring_mod sr₂ n₂ sig₂ p₂ := by
  subst hsr
  subst hn
  subst hsig
  subst hp
  rfl

/-- Witness for C9 at the spec's concrete scenario. -/
theorem ring_mod_deterministic_witness :
    (44100 : ℕ) = 44100 ∧ (3 : ℕ) = 3
      ∧ ([1000, -1000, 500] : List ℤ) = [1000, -1000, 500]
      ∧ RING_MOD_PARAMS = RING_MOD_PARAMS
      ∧ ring_mod 44100 3 [1000, -1000, 500] RING_MOD_PARAMS
        = ring_mod 44100 3 [1000, -1000, 500] RING_MOD_PARAMS :=
  ⟨rfl, rfl, rfl, rfl,
    ring_mod_deterministic 44100 44100 3 3 [1000, -1000, 500] [1000, -1000, 500]
      RING_MOD_PARAMS RING_MOD_PARAMS rfl rfl rfl rfl⟩

/-- The saturating cast always lands in the `i32` range. -/
theorem f32_to_i32_bounds (x : ℝ) :
    -(2 ^ 31) ≤ f32_to_i32 x ∧ f32_to_i32 x ≤ 2 ^ 31 - 1 := by
  unfold f32_to_i32
  constructor
  · exact le_max_left _ _
  · exact max_le (by norm_num) (min_le_left _ _)

/-- Every sample the loop emits is in the `i32` range. -/
theorem ringModLoop_mem_range (sr : ℕ) (p : RingModParams) :
    ∀ (n : ℕ) (sig : List ℤ) (st : OscState) (y : ℤ),
      y ∈ ringModLoop sr p n sig st → -(2 ^ 31) ≤ y ∧ y ≤ 2 ^ 31 - 1
  | 0, _, _, y, h => by simp [ringModLoop] at h
  | _ + 1, [], _, y, h => by simp [ringModLoop] at h
  | n + 1, s :: rest, st, y, h => by
      simp only [ringModLoop, List.mem_cons] at h
      rcases h with h | h
      · subst h
        exact f32_to_i32_bounds _
      · exact ringModLoop_mem_range sr p n rest (ringStep sr p st) y h

/-- C10: `ring_mod` is total and storing an output sample never
faults: every emitted sample fits in `i32`; the modelled `as i32` cast
saturates at `i32::MAX` and `i32::MIN` for out-of-range inputs and
maps NaN (the `none` of the `Option ℝ` model of `f32`) to 0. -/
theorem ring_mod_cast_total_saturating :
    (∀ (sr n : ℕ) (sig : List ℤ) (p : RingModParams),
        in_i32_range (ring_mod sr n sig p))
      ∧ (∀ x : ℝ, (2 : ℝ) ^ 31 - 1 ≤ x → f32_to_i32 x = 2 ^ 31 - 1)
      ∧ (∀ x : ℝ, x ≤ -((2 : ℝ) ^ 31) → f32_to_i32 x = -(2 ^ 31))
      ∧ f32_to_i32_nan none = 0 := by
  refine ⟨?_, ?_, ?_, rfl⟩
  · intro sr n sig p y hy
    exact ringModLoop_mem_range sr p n sig ⟨0, 0⟩ y hy
  · intro x hx
    have h0 : (0 : ℝ) ≤ x := le_trans (by norm_num) hx
    unfold f32_to_i32
    rw [if_pos h0]
    have hfl : (2 ^ 31 - 1 : ℤ) ≤ ⌊x⌋ := Int.le_floor.mpr (by push_cast; linarith)
    rw [min_eq_left hfl, max_eq_right (by norm_num)]
  · intro x hx
    have h2 : (0 : ℝ) < (2 : ℝ) ^ 31 := by norm_num
    have hneg : ¬ (0 : ℝ) ≤ x := by intro h; linarith
    unfold f32_to_i32
    rw [if_neg hneg]
    have hcl : ⌈x⌉ ≤ -(2 ^ 31 : ℤ) := Int.ceil_le.mpr (by push_cast; linarith)
    rw [min_eq_right (le_trans hcl (by norm_num)), max_eq_left hcl]

/-- Witness for C10: a concrete run's output is in range, and the cast
saturates at concrete out-of-range values. -/
theorem ring_mod_cast_total_saturating_witness :
    in_i32_range (ring_mod 44100 3 [1000, -1000, 500] RING_MOD_PARAMS)
      ∧ ((2 : ℝ) ^ 31 - 1 ≤ (2 : ℝ) ^ 31 ∧ f32_to_i32 ((2 : ℝ) ^ 31) = 2 ^ 31 - 1)
      ∧ (-((2 : ℝ) ^ 31) - 1 ≤ -((2 : ℝ) ^ 31)
        ∧ f32_to_i32 (-((2 : ℝ) ^ 31) - 1) = -(2 ^ 31)) :=
  ⟨ring_mod_cast_total_saturating.1 44100 3 [1000, -1000, 500] RING_MOD_PARAMS,
    ⟨by norm_num, ring_mod_cast_total_saturating.2.1 _ (by norm_num)⟩,
    ⟨by norm_num, ring_mod_cast_total_saturating.2.2.1 _ (by norm_num)⟩⟩
